import Mathlib

/-
Verification of the directory-allocation tool `alpinify.py`.

The Python program reorganizes a band/album/track music library into a flat
layout with at most 100 files per destination folder.  The embedding below
mirrors the source functions `get_band_dest_directory`,
`create_new_band_directory`, `remove_directory`, `create_directory` and the
traversal loop of `main`.  Filesystem effects are modelled as an explicit list
of actions; the in-memory `band_directory_map` is modelled as a function from
band names to optional per-band records.
-/

set_option maxRecDepth 8000

namespace Alpinify

/-- Constant `FILE_EXT = '.mp3'` from `src/alpinify.py`. -/
def FILE_EXT : String := ".mp3"

/-- Constant `MAX_FILES_PER_DIRECTORY = 100` from `src/alpinify.py`. -/
def MAX_FILES_PER_DIRECTORY : Nat := 100

/-- Little-endian decimal digits of `n`, with explicit structural fuel so that
the kernel can evaluate the definition.  `digitsAux fuel n` is the full digit
list of `n` whenever `n ≤ fuel`; the digit list of `0` is empty. -/
def digitsAux : Nat → Nat → List Nat
  | _, 0 => []
  | 0, _ + 1 => []
  | fuel + 1, n + 1 => (n + 1) % 10 :: digitsAux fuel ((n + 1) / 10)

/-- Little-endian decimal digits of `n` (empty for `0`). -/
def pyDigits (n : Nat) : List Nat := digitsAux n n

/-- Decimal digit rendered as a character. -/
def digitChar : Nat → Char
  | 0 => '0'
  | 1 => '1'
  | 2 => '2'
  | 3 => '3'
  | 4 => '4'
  | 5 => '5'
  | 6 => '6'
  | 7 => '7'
  | 8 => '8'
  | _ => '9'

/-- Model of Python `str` on a nonnegative integer: usual decimal rendering.
The source uses it as `band + '_' + str(...)`. -/
def pyStr (n : Nat) : String :=
  if n = 0 then "0" else String.mk (((pyDigits n).map digitChar).reverse)

/-- Model of Python `os.path.join` (POSIX) for the relative second arguments
used by alpinify: an empty first component yields the second, a first component
ending in a slash is concatenated directly, otherwise a slash is inserted. -/
def pyJoin (a b : String) : String :=
  if a = "" then b
  else if a.data.getLast? = some '/' then a ++ b
  else a ++ "/" ++ b

/-- Per-band entry of `band_directory_map`: the Python dict value with keys
`'directory'`, `'folder_count'`, `'file_count'`. -/
structure BandState where
  directory : String
  folder_count : Nat
  file_count : Nat
deriving Repr, DecidableEq

/-- The `band_directory_map` dictionary: band name to optional state. -/
def BandMap : Type := String → Option BandState

/-- Empty `band_directory_map`, as created at the start of `main`. -/
def emptyMap : BandMap := fun _ => none

/-- Dictionary assignment `band_directory_map[band] = st`. -/
def mapSet (m : BandMap) (band : String) (st : BandState) : BandMap :=
  fun b => if b = band then some st else m b

/-- Filesystem effects performed by the program, recorded as data.
`removeIfExists` models `remove_directory` (rmtree if the path exists),
`createIfAbsent` models `create_directory` (mkdir if the path is absent),
`copy` models `shutil.copy(srcPath, pyJoin destDir destName)`. -/
inductive FsAction : Type where
  | removeIfExists (path : String)
  | createIfAbsent (path : String)
  | copy (srcPath destDir destName : String)
deriving Repr, DecidableEq

/-- Placeholder used for dictionary lookups on keys that the Python code only
accesses when they are present (absence would raise `KeyError`). -/
def defaultBandState : BandState := ⟨"", 0, 0⟩

/-- Shallow embedding of `create_new_band_directory` (lines 111-131):
compute the directory name (the bare band name for `folder_count == 1`,
otherwise `band + '_' + str(` the map's old `folder_count)`), store the new
record in the map, then remove and recreate the directory on disk. -/
def create_new_band_directory (dest_path band : String) (folder_count file_count : Nat)
    (m : BandMap) : BandMap × List FsAction :=
  let directory :=
    if folder_count = 1 then band
    else band ++ "_" ++ pyStr ((m band).getD defaultBandState).folder_count
  (mapSet m band ⟨directory, folder_count, file_count⟩,
   [FsAction.removeIfExists (pyJoin dest_path directory),
    FsAction.createIfAbsent (pyJoin dest_path directory)])

/-- Shallow embedding of `get_band_dest_directory` (lines 86-108): initialize a
missing band with `folder_count = 1` and `file_count = files_in_album`, add the
batch to the stored count, allocate a new directory when the result exceeds
`MAX_FILES_PER_DIRECTORY`, and return the map's current directory. -/
def get_band_dest_directory (dest_path band : String) (files_in_album : Nat)
    (m : BandMap) : String × BandMap × List FsAction :=
  let init :=
    if (m band).isSome then (m, ([] : List FsAction))
    else create_new_band_directory dest_path band 1 files_in_album m
  let st := (init.1 band).getD defaultBandState
  let file_count := st.file_count + files_in_album
  if MAX_FILES_PER_DIRECTORY < file_count then
    let next := create_new_band_directory dest_path band (st.folder_count + 1)
      files_in_album init.1
    (((next.1 band).getD defaultBandState).directory, next.1, init.2 ++ next.2)
  else
    let m2 := mapSet init.1 band { st with file_count := file_count }
    (((m2 band).getD defaultBandState).directory, m2, init.2)

/-- Record of one `get_band_dest_directory` call: the band, the batch size, and
the returned destination directory (the whole batch is copied into it). -/
structure LogEntry where
  band : String
  size : Nat
  dir : String
deriving Repr, DecidableEq

/-- Run a sequence of `get_band_dest_directory` calls against a starting map,
collecting the per-call log and the filesystem actions. -/
def runCallsAux (dest_path : String) (calls : List (String × Nat)) (m : BandMap) :
    BandMap × List LogEntry × List FsAction :=
  match calls with
  | [] => (m, [], [])
  | (band, n) :: rest =>
    let out := get_band_dest_directory dest_path band n m
    let tail := runCallsAux dest_path rest out.2.1
    (tail.1, ⟨band, n, out.1⟩ :: tail.2.1, out.2.2 ++ tail.2.2)

/-- Run a sequence of `get_band_dest_directory` calls from the empty map, as
one execution of `main` does. -/
def runCalls (dest_path : String) (calls : List (String × Nat)) :
    BandMap × List LogEntry × List FsAction :=
  runCallsAux dest_path calls emptyMap

/-- Node of the source tree: `os.listdir` entries are either regular files or
directories (the code distinguishes them with `os.path.isfile` /
`os.path.isdir`). -/
inductive Node : Type where
  | file (name : String)
  | dir (name : String) (children : List Node)
deriving Repr

/-- Model of Python `s.lower()`: ASCII lowercasing of every character. -/
def pyLower (s : String) : String := String.mk (s.data.map Char.toLower)

/-- Model of Python `s.endswith(suffix)`, stated on the character lists. -/
def pyEndsWith (s suffix : String) : Bool := List.isSuffixOf suffix.data s.data

/-- The inner song loop of `main` (lines 63-71): the names of the entries of an
album directory that are regular files and whose lowercased name ends with
`FILE_EXT`. -/
def eligibleSongs (entries : List Node) : List String :=
  entries.filterMap fun e =>
    match e with
    | Node.file s => if pyEndsWith (pyLower s) FILE_EXT then some s else none
    | Node.dir _ _ => none

/-- Record of one processed album: band and album names, the transferred song
filenames, and the destination directory returned by
`get_band_dest_directory`. -/
structure AlbumRec where
  band : String
  album : String
  songs : List String
  dir : String
deriving Repr, DecidableEq

/-- The album-level body of `main` (lines 58-83): skip non-directories and
albums with no eligible songs; otherwise allocate a destination directory and
copy every song to `dest_path/<dir>/<album>-<song>`. -/
def processAlbum (dest_path band_path band : String) (album : Node) (m : BandMap) :
    BandMap × List FsAction × List AlbumRec :=
  match album with
  | Node.file _ => (m, [], [])
  | Node.dir albumName entries =>
    let album_path := pyJoin band_path albumName
    let songs := eligibleSongs entries
    if songs = [] then (m, [], [])
    else
      let out := get_band_dest_directory dest_path band songs.length m
      let copies := songs.map fun song =>
        FsAction.copy (pyJoin album_path song)
          (pyJoin dest_path out.1)
          (albumName ++ "-" ++ song)
      (out.2.1, out.2.2 ++ copies, [⟨band, albumName, songs, out.1⟩])

/-- The album loop of `main` over the entries of one band directory. -/
def processAlbums (dest_path band_path band : String) (albums : List Node)
    (m : BandMap) : BandMap × List FsAction × List AlbumRec :=
  match albums with
  | [] => (m, [], [])
  | a :: rest =>
    let head := processAlbum dest_path band_path band a m
    let tail := processAlbums dest_path band_path band rest head.1
    (tail.1, head.2.1 ++ tail.2.1, head.2.2 ++ tail.2.2)

/-- The band filter of `main` line 55: `not bands or band in bands`, where the
`--bands` option is absent (`None`) or a list of names. -/
def shouldProcess (bands : Option (List String)) (band : String) : Bool :=
  match bands with
  | none => true
  | some l => l.isEmpty || l.contains band

/-- The band-level body of `main` (lines 51-58): skip non-directories and bands
rejected by the filter, otherwise process the band's album entries. -/
def processBand (music_path dest_path : String) (bands : Option (List String))
    (node : Node) (m : BandMap) : BandMap × List FsAction × List AlbumRec :=
  match node with
  | Node.file _ => (m, [], [])
  | Node.dir band children =>
    if shouldProcess bands band then
      processAlbums dest_path (pyJoin music_path band) band children m
    else (m, [], [])

/-- The band loop of `main` over the entries of the music directory. -/
def runBands (music_path dest_path : String) (bands : Option (List String))
    (nodes : List Node) (m : BandMap) : BandMap × List FsAction × List AlbumRec :=
  match nodes with
  | [] => (m, [], [])
  | b :: rest =>
    let head := processBand music_path dest_path bands b m
    let tail := runBands music_path dest_path bands rest head.1
    (tail.1, head.2.1 ++ tail.2.1, head.2.2 ++ tail.2.2)

/-- One full run of `main` on a source tree: start from the empty
`band_directory_map` and walk every top-level entry. -/
def runAlpinify (music_path dest_path : String) (bands : Option (List String))
    (tree : List Node) : BandMap × List FsAction × List AlbumRec :=
  runBands music_path dest_path bands tree emptyMap

/-- Destination filesystem model: a flat list of directories, each with the
names of the files it contains. -/
abbrev Fs : Type := List (String × List String)

/-- Interpretation of one filesystem action on the destination filesystem.
Removing a directory drops it with all its files (`shutil.rmtree`); creation is
a no-op when the directory exists (`create_directory`); a copy overwrites or
adds the destination file inside the destination directory. -/
def fsApply (fs : Fs) (a : FsAction) : Fs :=
  match a with
  | FsAction.removeIfExists p => fs.filter fun e => e.1 != p
  | FsAction.createIfAbsent p =>
      if (fs.map Prod.fst).contains p then fs else fs ++ [(p, [])]
  | FsAction.copy _ dd dn =>
      fs.map fun e =>
        if e.1 = dd then (e.1, if e.2.contains dn then e.2 else e.2 ++ [dn]) else e

/-- Interpretation of a list of filesystem actions, in order. -/
def fsApplyAll (fs : Fs) (acts : List FsAction) : Fs := acts.foldl fsApply fs

/-- Decimal value of a little-endian digit list. -/
def ofDigitsRev : List Nat → Nat
  | [] => 0
  | d :: l => d + 10 * ofDigitsRev l

/-- Directory name used for the `k`-th folder allocated for a band: the bare
band name for the first folder, `band + '_' + str(k - 1)` afterwards (the
misnamed index is what the code actually produces, see
`create_new_band_directory`). -/
def dirName (band : String) : Nat → String
  | 0 => band
  | 1 => band
  | k + 2 => band ++ "_" ++ pyStr (k + 1)

/-- Total number of files assigned by the logged calls of band `β` into the
destination directory `d`. -/
def assignedBy (L : List LogEntry) (β d : String) : Nat :=
  ((L.filter fun e => e.band == β && e.dir == d).map LogEntry.size).sum

/-- Total number of files assigned by all logged calls into the destination
directory `d`, regardless of band. -/
def assignedTo (L : List LogEntry) (d : String) : Nat :=
  ((L.filter fun e => e.dir == d).map LogEntry.size).sum

/-- Some logged call of band `β` put a batch larger than the cap into `d`. -/
def bigEntry (L : List LogEntry) (β d : String) : Prop :=
  ∃ e ∈ L, e.band = β ∧ e.dir = d ∧ MAX_FILES_PER_DIRECTORY < e.size

/-- Invariant of the allocation map relative to the log of all calls so far:
every stored record has a positive folder count and the directory name derived
from it, the files assigned into the band's current directory are bounded by
the stored (over-approximating) `file_count`, a stored `file_count` above the
cap is explained by a single oversized batch, every band/directory pair outside
the current directories already satisfies the cap-or-big-batch property, and
every logged entry of a band used one of that band's first `folder_count`
directory names. -/
def AllocInv (m : BandMap) (L : List LogEntry) : Prop :=
  (∀ β s, m β = some s →
      1 ≤ s.folder_count ∧ s.directory = dirName β s.folder_count ∧
      assignedBy L β s.directory ≤ s.file_count ∧
      (s.file_count ≤ MAX_FILES_PER_DIRECTORY ∨ bigEntry L β s.directory)) ∧
  (∀ β d, assignedBy L β d ≤ MAX_FILES_PER_DIRECTORY ∨ bigEntry L β d ∨
      ∃ s, m β = some s ∧ d = s.directory) ∧
  (∀ e ∈ L, ∃ s, m e.band = some s ∧
      ∃ k, 1 ≤ k ∧ k ≤ s.folder_count ∧ e.dir = dirName e.band k)

/-- Predicate on filesystem actions: the path written to (removed, created, or
copied into) lies directly under the given destination root. -/
def underDest (dest_path : String) : FsAction → Prop
  | FsAction.removeIfExists p => ∃ d, p = pyJoin dest_path d
  | FsAction.createIfAbsent p => ∃ d, p = pyJoin dest_path d
  | FsAction.copy _ destDir _ => ∃ d, destDir = pyJoin dest_path d

/-- Band nodes kept by a band filter: directories whose name occurs in the
filter; file nodes are irrelevant (both runs skip them). -/
def keepBand (f : List String) : Node → Bool
  | Node.file _ => true
  | Node.dir name _ => f.contains name

example : pyStr 1 = "1" := by decide

example : pyStr 12 = "12" := by decide

example : (runCalls "/alp" [("Nirvana", 60)]).2.1 =
    [⟨"Nirvana", 60, "Nirvana_1"⟩] := by decide

example : (runCalls "/alp" [("Prolific", 40), ("Prolific", 40), ("Prolific", 40)]).2.1.map
    LogEntry.dir = ["Prolific", "Prolific_1", "Prolific_1"] := by decide

example : (runCalls "/alp" [("AC", 60), ("AC_1", 45)]).2.1 =
    [⟨"AC", 60, "AC_1"⟩, ⟨"AC_1", 45, "AC_1"⟩] := by decide

example :
    (runAlpinify "/music" "/alp" none
      [Node.dir "Nirvana" [Node.dir "Nevermind" [Node.file "Polly.mp3"]]]).2.1 =
    [FsAction.removeIfExists "/alp/Nirvana", FsAction.createIfAbsent "/alp/Nirvana",
     FsAction.copy "/music/Nirvana/Nevermind/Polly.mp3" "/alp/Nirvana"
       "Nevermind-Polly.mp3"] := by decide

example :
    fsApplyAll [("/alp/Nirvana", ["keep.mp3"])]
      (runAlpinify "/music" "/alp" none
        [Node.dir "Nirvana" [Node.dir "Nevermind" [Node.file "Polly.mp3"]]]).2.1 =
    [("/alp/Nirvana", ["Nevermind-Polly.mp3"])] := by decide

theorem ofDigitsRev_digitsAux : ∀ fuel n, n ≤ fuel →
    ofDigitsRev (digitsAux fuel n) = n := by
  intro fuel
  induction fuel with
  | zero =>
    intro n hn
    interval_cases n
    simp [digitsAux, ofDigitsRev]
  | succ fuel ih =>
    intro n hn
    match n with
    | 0 => simp [digitsAux, ofDigitsRev]
    | n + 1 =>
      have hdiv : (n + 1) / 10 < n + 1 := Nat.div_lt_self (Nat.succ_pos n) (by norm_num)
      have hle : (n + 1) / 10 ≤ fuel := by omega
      simp only [digitsAux, ofDigitsRev, ih _ hle]
      omega

theorem pyDigits_inj {a b : Nat} (h : pyDigits a = pyDigits b) : a = b := by
  have ha := ofDigitsRev_digitsAux a a (Nat.le_refl a)
  have hb := ofDigitsRev_digitsAux b b (Nat.le_refl b)
  rw [← ha, ← hb]
  unfold pyDigits at h
  rw [h]

theorem digitsAux_lt : ∀ fuel n d, d ∈ digitsAux fuel n → d < 10 := by
  intro fuel
  induction fuel with
  | zero =>
    intro n d hd
    match n with
    | 0 => simp [digitsAux] at hd
    | n + 1 => simp [digitsAux] at hd
  | succ fuel ih =>
    intro n d hd
    match n with
    | 0 => simp [digitsAux] at hd
    | n + 1 =>
      simp only [digitsAux, List.mem_cons] at hd
      rcases hd with hd | hd
      · omega
      · exact ih _ _ hd

theorem pyDigits_lt {n d : Nat} (h : d ∈ pyDigits n) : d < 10 :=
  digitsAux_lt n n d h

theorem digitChar_inj_fin : ∀ a b : Fin 10, digitChar a.val = digitChar b.val → a = b := by
  decide

theorem map_digitChar_inj : ∀ l1 l2 : List Nat, (∀ d ∈ l1, d < 10) → (∀ d ∈ l2, d < 10) →
    l1.map digitChar = l2.map digitChar → l1 = l2 := by
  intro l1
  induction l1 with
  | nil =>
    intro l2 _ _ h
    cases l2 with
    | nil => rfl
    | cons b t => simp at h
  | cons a t ih =>
    intro l2 h1 h2 h
    cases l2 with
    | nil => simp at h
    | cons b t2 =>
      simp only [List.map_cons, List.cons.injEq] at h
      have ha : a < 10 := h1 a (List.mem_cons_self a t)
      have hb : b < 10 := h2 b (List.mem_cons_self b t2)
      have hab : a = b := by
        have := digitChar_inj_fin ⟨a, ha⟩ ⟨b, hb⟩ h.1
        exact congrArg Fin.val this
      have ht : t = t2 := ih t2 (fun d hd => h1 d (List.mem_cons_of_mem a hd))
        (fun d hd => h2 d (List.mem_cons_of_mem b hd)) h.2
      rw [hab, ht]

theorem pyStr_data_inj {a b : Nat} (ha : 0 < a) (hb : 0 < b)
    (h : (pyStr a).data = (pyStr b).data) : a = b := by
  unfold pyStr at h
  rw [if_neg (Nat.pos_iff_ne_zero.mp ha), if_neg (Nat.pos_iff_ne_zero.mp hb)] at h
  have hrev : ((pyDigits a).map digitChar).reverse = ((pyDigits b).map digitChar).reverse := h
  have hmap := List.reverse_inj.mp hrev
  exact pyDigits_inj (map_digitChar_inj _ _ (fun d hd => pyDigits_lt hd)
    (fun d hd => pyDigits_lt hd) hmap)

theorem bare_ne_numbered (band : String) (k : Nat) :
    band ≠ band ++ "_" ++ pyStr k := by
  intro h
  have hd : band.data = band.data ++ ('_' :: (pyStr k).data) := by
    have hd0 := congrArg String.data h
    rw [String.data_append, String.data_append, List.append_assoc] at hd0
    exact hd0
  nth_rewrite 1 [← List.append_nil band.data] at hd
  have := List.append_cancel_left hd
  simp at this

theorem numbered_inj {band : String} {a b : Nat} (ha : 0 < a) (hb : 0 < b)
    (h : band ++ "_" ++ pyStr a = band ++ "_" ++ pyStr b) : a = b := by
  have hd := congrArg String.data h
  rw [String.data_append, String.data_append, String.data_append,
    String.data_append, List.append_assoc, List.append_assoc] at hd
  have hcancel := List.append_cancel_left hd
  have hcancel2 := List.append_cancel_left hcancel
  exact pyStr_data_inj ha hb hcancel2

theorem dirName_inj {band : String} {j k : Nat} (hj : 1 ≤ j) (hk : 1 ≤ k)
    (h : dirName band j = dirName band k) : j = k := by
  match j, k with
  | 1, 1 => rfl
  | 1, k + 2 => exact absurd h (bare_ne_numbered band (k + 1))
  | j + 2, 1 => exact absurd h.symm (bare_ne_numbered band (j + 1))
  | j + 2, k + 2 =>
    have := numbered_inj (Nat.succ_pos j) (Nat.succ_pos k) h
    omega

theorem dirName_one (band : String) : dirName band 1 = band := rfl

theorem dirName_succ_succ (band : String) (k : Nat) :
    dirName band (k + 2) = band ++ "_" ++ pyStr (k + 1) := rfl

theorem mapSet_same (m : BandMap) (band : String) (st : BandState) :
    mapSet m band st band = some st := by
  simp [mapSet]

theorem mapSet_other (m : BandMap) {band b : String} (st : BandState) (h : b ≠ band) :
    mapSet m band st b = m b := by
  simp [mapSet, h]

theorem mapSet_mapSet (m : BandMap) (band : String) (s1 s2 : BandState) :
    mapSet (mapSet m band s1) band s2 = mapSet m band s2 := by
  funext x
  by_cases hx : x = band <;> simp [mapSet, hx]

/-- The reuse case of `get_band_dest_directory`: the band is known and the
projected count fits, so the stored directory is returned, the count is bumped,
and no filesystem action happens. -/
theorem step_known_fit {m : BandMap} {band : String} {st : BandState} {n : Nat}
    (dp : String) (h : m band = some st)
    (hfit : st.file_count + n ≤ MAX_FILES_PER_DIRECTORY) :
    get_band_dest_directory dp band n m =
      (st.directory,
       mapSet m band ⟨st.directory, st.folder_count, st.file_count + n⟩, []) := by
  unfold get_band_dest_directory
  simp [h, Nat.not_lt.mpr hfit, mapSet_same]

/-- The overflow case of `get_band_dest_directory` for a known band: a new
directory named `band + '_' + str(` old `folder_count)` is allocated, removed
and recreated on disk, and the stored count is reset to the batch size. -/
theorem step_known_overflow {m : BandMap} {band : String} {st : BandState} {n : Nat}
    (dp : String) (h : m band = some st)
    (hov : MAX_FILES_PER_DIRECTORY < st.file_count + n)
    (hfc : st.folder_count ≠ 0) :
    get_band_dest_directory dp band n m =
      (band ++ "_" ++ pyStr st.folder_count,
       mapSet m band ⟨band ++ "_" ++ pyStr st.folder_count, st.folder_count + 1, n⟩,
       [FsAction.removeIfExists (pyJoin dp (band ++ "_" ++ pyStr st.folder_count)),
        FsAction.createIfAbsent (pyJoin dp (band ++ "_" ++ pyStr st.folder_count))]) := by
  unfold get_band_dest_directory create_new_band_directory
  simp [h, hov, hfc, mapSet_same]

/-- The fresh-band case of `get_band_dest_directory` without overflow: the band
is initialized with the batch size as `file_count`, the batch is added a second
time, and the bare band directory is removed, recreated and returned. -/
theorem step_new_fit {m : BandMap} {band : String} {n : Nat}
    (dp : String) (h : m band = none) (hfit : n + n ≤ MAX_FILES_PER_DIRECTORY) :
    get_band_dest_directory dp band n m =
      (band, mapSet m band ⟨band, 1, n + n⟩,
       [FsAction.removeIfExists (pyJoin dp band),
        FsAction.createIfAbsent (pyJoin dp band)]) := by
  unfold get_band_dest_directory create_new_band_directory
  simp [h, Nat.not_lt.mpr hfit, mapSet_same, mapSet_mapSet]

/-- The fresh-band case of `get_band_dest_directory` with immediate overflow
(the doubled count exceeds the cap): the bare band directory is allocated and
immediately superseded by `band + '_' + str(1)`, which receives the batch. -/
theorem step_new_overflow {m : BandMap} {band : String} {n : Nat}
    (dp : String) (h : m band = none) (hov : MAX_FILES_PER_DIRECTORY < n + n) :
    get_band_dest_directory dp band n m =
      (band ++ "_" ++ pyStr 1,
       mapSet m band ⟨band ++ "_" ++ pyStr 1, 2, n⟩,
       [FsAction.removeIfExists (pyJoin dp band),
        FsAction.createIfAbsent (pyJoin dp band),
        FsAction.removeIfExists (pyJoin dp (band ++ "_" ++ pyStr 1)),
        FsAction.createIfAbsent (pyJoin dp (band ++ "_" ++ pyStr 1))]) := by
  unfold get_band_dest_directory create_new_band_directory
  simp [h, hov, mapSet_same, mapSet_mapSet]

theorem assignedBy_append (L1 L2 : List LogEntry) (β d : String) :
    assignedBy (L1 ++ L2) β d = assignedBy L1 β d + assignedBy L2 β d := by
  simp [assignedBy, List.filter_append]

theorem assignedBy_single (e : LogEntry) (β d : String) :
    assignedBy [e] β d = if e.band = β ∧ e.dir = d then e.size else 0 := by
  by_cases h1 : e.band = β <;> by_cases h2 : e.dir = d <;>
    simp [assignedBy, h1, h2]

theorem assignedBy_eq_zero {L : List LogEntry} {β d : String}
    (h : ∀ e ∈ L, ¬(e.band = β ∧ e.dir = d)) : assignedBy L β d = 0 := by
  induction L with
  | nil => rfl
  | cons a t ih =>
    have ha := h a (List.mem_cons_self a t)
    have hcond : (a.band == β && a.dir == d) = false := by
      by_cases h1 : a.band = β <;> by_cases h2 : a.dir = d <;> simp_all
    simp only [assignedBy, List.filter_cons, hcond, Bool.false_eq_true, if_false]
    exact ih fun e he => h e (List.mem_cons_of_mem a he)

theorem bigEntry_mono {L : List LogEntry} {β d : String} (e : LogEntry)
    (h : bigEntry L β d) : bigEntry (L ++ [e]) β d := by
  obtain ⟨x, hx, hprop⟩ := h
  exact ⟨x, List.mem_append_left _ hx, hprop⟩

theorem bigEntry_last {L : List LogEntry} {β d : String} {e : LogEntry}
    (h1 : e.band = β) (h2 : e.dir = d) (h3 : MAX_FILES_PER_DIRECTORY < e.size) :
    bigEntry (L ++ [e]) β d :=
  ⟨e, List.mem_append_right _ (List.mem_singleton.mpr rfl), h1, h2, h3⟩

theorem allocInv_empty : AllocInv emptyMap [] := by
  refine ⟨?_, ?_, ?_⟩
  · intro β s h
    simp [emptyMap] at h
  · intro β d
    left
    simp [assignedBy, MAX_FILES_PER_DIRECTORY]
  · intro e he
    simp at he

theorem allocInv_goal {m : BandMap} {L : List LogEntry} (h : AllocInv m L) :
    ∀ β d, assignedBy L β d ≤ MAX_FILES_PER_DIRECTORY ∨ bigEntry L β d := by
  intro β d
  rcases h.2.1 β d with h1 | h2 | ⟨s, hs, hd⟩
  · exact Or.inl h1
  · exact Or.inr h2
  · have hrec := h.1 β s hs
    rcases hrec.2.2.2 with hc | hb
    · exact Or.inl (hd ▸ le_trans hrec.2.2.1 hc)
    · exact Or.inr (hd ▸ hb)

theorem assignedBy_append_nomatch {L : List LogEntry} {e : LogEntry} {β d : String}
    (h : ¬(e.band = β ∧ e.dir = d)) :
    assignedBy (L ++ [e]) β d = assignedBy L β d := by
  rw [assignedBy_append, assignedBy_single, if_neg h, Nat.add_zero]

theorem assignedBy_append_match {L : List LogEntry} {e : LogEntry} {β d : String}
    (h1 : e.band = β) (h2 : e.dir = d) :
    assignedBy (L ++ [e]) β d = assignedBy L β d + e.size := by
  rw [assignedBy_append, assignedBy_single, if_pos ⟨h1, h2⟩]

theorem dirName_succ {band : String} {fc : Nat} (h : 1 ≤ fc) :
    dirName band (fc + 1) = band ++ "_" ++ pyStr fc := by
  match fc, h with
  | k + 1, _ => rfl

theorem no_entry_of_none {m : BandMap} {L : List LogEntry} {band : String}
    (I3 : ∀ e ∈ L, ∃ s, m e.band = some s ∧
      ∃ k, 1 ≤ k ∧ k ≤ s.folder_count ∧ e.dir = dirName e.band k)
    (hm : m band = none) : ∀ e ∈ L, e.band ≠ band := by
  intro e he hb
  obtain ⟨s, hs, _⟩ := I3 e he
  rw [hb, hm] at hs
  exact Option.noConfusion hs

theorem no_entry_fresh_dir {m : BandMap} {L : List LogEntry} {band : String}
    {st : BandState}
    (I3 : ∀ e ∈ L, ∃ s, m e.band = some s ∧
      ∃ k, 1 ≤ k ∧ k ≤ s.folder_count ∧ e.dir = dirName e.band k)
    (hm : m band = some st) :
    ∀ e ∈ L, ¬(e.band = band ∧ e.dir = dirName band (st.folder_count + 1)) := by
  rintro e he ⟨hb, hd⟩
  obtain ⟨s, hs, k, hk1, hk2, hdir⟩ := I3 e he
  rw [hb] at hs hdir
  rw [hm] at hs
  injection hs with hs
  subst hs
  have hk : k = st.folder_count + 1 :=
    dirName_inj hk1 (by omega) (hdir ▸ hd : dirName band k = dirName band (st.folder_count + 1))
  omega

/-- Invariant preservation for the reuse case of `get_band_dest_directory`. -/
theorem allocInv_known_fit {m : BandMap} {L : List LogEntry} {band : String}
    {st : BandState} {n : Nat} (hinv : AllocInv m L) (hm : m band = some st)
    (hfit : st.file_count + n ≤ MAX_FILES_PER_DIRECTORY) :
    AllocInv (mapSet m band ⟨st.directory, st.folder_count, st.file_count + n⟩)
      (L ++ [⟨band, n, st.directory⟩]) := by
  obtain ⟨I1, I2, I3⟩ := hinv
  obtain ⟨hfc, hdir, hass, hcap⟩ := I1 band st hm
  refine ⟨?_, ?_, ?_⟩
  · intro β s hs
    by_cases hβ : β = band
    · subst hβ
      rw [mapSet_same] at hs
      injection hs with hs
      subst hs
      refine ⟨hfc, hdir, ?_, Or.inl hfit⟩
      rw [assignedBy_append_match rfl rfl]
      exact Nat.add_le_add_right hass n
    · rw [mapSet_other _ _ hβ] at hs
      obtain ⟨h1, h2, h3, h4⟩ := I1 β s hs
      refine ⟨h1, h2, ?_, ?_⟩
      · rw [assignedBy_append_nomatch (fun hc => hβ hc.1.symm)]
        exact h3
      · rcases h4 with h4 | h4
        · exact Or.inl h4
        · exact Or.inr (bigEntry_mono _ h4)
  · intro β d
    by_cases hβd : β = band ∧ d = st.directory
    · refine Or.inr (Or.inr ⟨⟨st.directory, st.folder_count, st.file_count + n⟩, ?_, hβd.2⟩)
      rw [hβd.1, mapSet_same]
    · rw [assignedBy_append_nomatch (fun hc => hβd ⟨hc.1.symm, hc.2.symm⟩)]
      rcases I2 β d with h | h | ⟨s, hs, hd⟩
      · exact Or.inl h
      · exact Or.inr (Or.inl (bigEntry_mono _ h))
      · by_cases hβ : β = band
        · subst hβ
          rw [hm] at hs
          injection hs with hs
          subst hs
          exact absurd ⟨rfl, hd⟩ hβd
        · refine Or.inr (Or.inr ⟨s, ?_, hd⟩)
          rw [mapSet_other _ _ hβ]
          exact hs
  · intro e he
    rcases List.mem_append.mp he with he | he
    · obtain ⟨s, hs, k, hk1, hk2, hdire⟩ := I3 e he
      by_cases hβ : e.band = band
      · rw [hβ, hm] at hs
        injection hs with hs
        subst hs
        exact ⟨⟨st.directory, st.folder_count, st.file_count + n⟩,
          by rw [hβ, mapSet_same], k, hk1, hk2, hdire⟩
      · exact ⟨s, by rw [mapSet_other _ _ hβ]; exact hs, k, hk1, hk2, hdire⟩
    · rw [List.mem_singleton.mp he]
      exact ⟨⟨st.directory, st.folder_count, st.file_count + n⟩,
        mapSet_same _ _ _, st.folder_count, hfc, Nat.le_refl _, hdir⟩

/-- Invariant preservation for the overflow case of `get_band_dest_directory`
on a known band. -/
theorem allocInv_known_overflow {m : BandMap} {L : List LogEntry} {band : String}
    {st : BandState} {n : Nat} (hinv : AllocInv m L) (hm : m band = some st) :
    AllocInv
      (mapSet m band ⟨band ++ "_" ++ pyStr st.folder_count, st.folder_count + 1, n⟩)
      (L ++ [⟨band, n, band ++ "_" ++ pyStr st.folder_count⟩]) := by
  obtain ⟨I1, I2, I3⟩ := hinv
  obtain ⟨hfc, hdir, hass, hcap⟩ := I1 band st hm
  have hnd : band ++ "_" ++ pyStr st.folder_count = dirName band (st.folder_count + 1) :=
    (dirName_succ hfc).symm
  have hfresh : ∀ e ∈ L, ¬(e.band = band ∧ e.dir = band ++ "_" ++ pyStr st.folder_count) := by
    intro e he hc
    exact no_entry_fresh_dir I3 hm e he ⟨hc.1, hnd ▸ hc.2⟩
  have hzero : assignedBy L band (band ++ "_" ++ pyStr st.folder_count) = 0 :=
    assignedBy_eq_zero hfresh
  have hold_ne : st.directory ≠ band ++ "_" ++ pyStr st.folder_count := by
    rw [hdir, hnd]
    intro h
    have := dirName_inj hfc (by omega) h
    omega
  refine ⟨?_, ?_, ?_⟩
  · intro β s hs
    by_cases hβ : β = band
    · subst hβ
      rw [mapSet_same] at hs
      injection hs with hs
      subst hs
      refine ⟨by show 1 ≤ st.folder_count + 1; omega, hnd, ?_, ?_⟩
      · rw [assignedBy_append_match rfl rfl, hzero]
        show 0 + n ≤ n
        omega
      · rcases le_or_lt n MAX_FILES_PER_DIRECTORY with hn | hn
        · exact Or.inl hn
        · exact Or.inr (bigEntry_last rfl rfl hn)
    · rw [mapSet_other _ _ hβ] at hs
      obtain ⟨h1, h2, h3, h4⟩ := I1 β s hs
      refine ⟨h1, h2, ?_, ?_⟩
      · rw [assignedBy_append_nomatch (fun hc => hβ hc.1.symm)]
        exact h3
      · rcases h4 with h4 | h4
        · exact Or.inl h4
        · exact Or.inr (bigEntry_mono _ h4)
  · intro β d
    by_cases hβd : β = band ∧ d = band ++ "_" ++ pyStr st.folder_count
    · refine Or.inr (Or.inr
        ⟨⟨band ++ "_" ++ pyStr st.folder_count, st.folder_count + 1, n⟩, ?_, hβd.2⟩)
      rw [hβd.1, mapSet_same]
    · rw [assignedBy_append_nomatch (fun hc => hβd ⟨hc.1.symm, hc.2.symm⟩)]
      rcases I2 β d with h | h | ⟨s, hs, hd⟩
      · exact Or.inl h
      · exact Or.inr (Or.inl (bigEntry_mono _ h))
      · by_cases hβ : β = band
        · subst hβ
          rw [hm] at hs
          injection hs with hs
          subst hs
          rcases hcap with hc | hb
          · exact Or.inl (hd ▸ le_trans hass hc)
          · exact Or.inr (Or.inl (hd ▸ bigEntry_mono _ hb))
        · refine Or.inr (Or.inr ⟨s, ?_, hd⟩)
          rw [mapSet_other _ _ hβ]
          exact hs
  · intro e he
    rcases List.mem_append.mp he with he | he
    · obtain ⟨s, hs, k, hk1, hk2, hdire⟩ := I3 e he
      by_cases hβ : e.band = band
      · rw [hβ, hm] at hs
        injection hs with hs
        subst hs
        exact ⟨⟨band ++ "_" ++ pyStr st.folder_count, st.folder_count + 1, n⟩,
          by rw [hβ, mapSet_same], k, hk1, by show k ≤ st.folder_count + 1; omega, hdire⟩
      · exact ⟨s, by rw [mapSet_other _ _ hβ]; exact hs, k, hk1, hk2, hdire⟩
    · rw [List.mem_singleton.mp he]
      exact ⟨⟨band ++ "_" ++ pyStr st.folder_count, st.folder_count + 1, n⟩,
        mapSet_same _ _ _, st.folder_count + 1, by omega, Nat.le_refl _, hnd⟩

/-- Invariant preservation for the fresh-band case of
`get_band_dest_directory` without overflow. -/
theorem allocInv_new_fit {m : BandMap} {L : List LogEntry} {band : String} {n : Nat}
    (hinv : AllocInv m L) (hm : m band = none)
    (hfit : n + n ≤ MAX_FILES_PER_DIRECTORY) :
    AllocInv (mapSet m band ⟨band, 1, n + n⟩) (L ++ [⟨band, n, band⟩]) := by
  obtain ⟨I1, I2, I3⟩ := hinv
  have hnone := no_entry_of_none I3 hm
  refine ⟨?_, ?_, ?_⟩
  · intro β s hs
    by_cases hβ : β = band
    · subst hβ
      rw [mapSet_same] at hs
      injection hs with hs
      subst hs
      refine ⟨Nat.le_refl 1, rfl, ?_, Or.inl hfit⟩
      rw [assignedBy_append_match rfl rfl,
        assignedBy_eq_zero (fun e he hc => hnone e he hc.1)]
      show 0 + n ≤ n + n
      omega
    · rw [mapSet_other _ _ hβ] at hs
      obtain ⟨h1, h2, h3, h4⟩ := I1 β s hs
      refine ⟨h1, h2, ?_, ?_⟩
      · rw [assignedBy_append_nomatch (fun hc => hβ hc.1.symm)]
        exact h3
      · rcases h4 with h4 | h4
        · exact Or.inl h4
        · exact Or.inr (bigEntry_mono _ h4)
  · intro β d
    by_cases hβd : β = band ∧ d = band
    · refine Or.inr (Or.inr ⟨⟨band, 1, n + n⟩, ?_, hβd.2⟩)
      rw [hβd.1, mapSet_same]
    · rw [assignedBy_append_nomatch (fun hc => hβd ⟨hc.1.symm, hc.2.symm⟩)]
      rcases I2 β d with h | h | ⟨s, hs, hd⟩
      · exact Or.inl h
      · exact Or.inr (Or.inl (bigEntry_mono _ h))
      · by_cases hβ : β = band
        · subst hβ
          rw [hm] at hs
          exact Option.noConfusion hs
        · refine Or.inr (Or.inr ⟨s, ?_, hd⟩)
          rw [mapSet_other _ _ hβ]
          exact hs
  · intro e he
    rcases List.mem_append.mp he with he | he
    · obtain ⟨s, hs, k, hk1, hk2, hdire⟩ := I3 e he
      have hβ : e.band ≠ band := hnone e he
      exact ⟨s, by rw [mapSet_other _ _ hβ]; exact hs, k, hk1, hk2, hdire⟩
    · rw [List.mem_singleton.mp he]
      exact ⟨⟨band, 1, n + n⟩, mapSet_same _ _ _, 1, Nat.le_refl 1, Nat.le_refl 1, rfl⟩

/-- Invariant preservation for the fresh-band case of
`get_band_dest_directory` with immediate overflow. -/
theorem allocInv_new_overflow {m : BandMap} {L : List LogEntry} {band : String} {n : Nat}
    (hinv : AllocInv m L) (hm : m band = none) :
    AllocInv (mapSet m band ⟨band ++ "_" ++ pyStr 1, 2, n⟩)
      (L ++ [⟨band, n, band ++ "_" ++ pyStr 1⟩]) := by
  obtain ⟨I1, I2, I3⟩ := hinv
  have hnone := no_entry_of_none I3 hm
  have hnd : band ++ "_" ++ pyStr 1 = dirName band 2 := rfl
  refine ⟨?_, ?_, ?_⟩
  · intro β s hs
    by_cases hβ : β = band
    · subst hβ
      rw [mapSet_same] at hs
      injection hs with hs
      subst hs
      refine ⟨by show 1 ≤ 2; omega, hnd, ?_, ?_⟩
      · rw [assignedBy_append_match rfl rfl,
          assignedBy_eq_zero (fun e he hc => hnone e he hc.1)]
        show 0 + n ≤ n
        omega
      · rcases le_or_lt n MAX_FILES_PER_DIRECTORY with hn | hn
        · exact Or.inl hn
        · exact Or.inr (bigEntry_last rfl rfl hn)
    · rw [mapSet_other _ _ hβ] at hs
      obtain ⟨h1, h2, h3, h4⟩ := I1 β s hs
      refine ⟨h1, h2, ?_, ?_⟩
      · rw [assignedBy_append_nomatch (fun hc => hβ hc.1.symm)]
        exact h3
      · rcases h4 with h4 | h4
        · exact Or.inl h4
        · exact Or.inr (bigEntry_mono _ h4)
  · intro β d
    by_cases hβd : β = band ∧ d = band ++ "_" ++ pyStr 1
    · refine Or.inr (Or.inr ⟨⟨band ++ "_" ++ pyStr 1, 2, n⟩, ?_, hβd.2⟩)
      rw [hβd.1, mapSet_same]
    · rw [assignedBy_append_nomatch (fun hc => hβd ⟨hc.1.symm, hc.2.symm⟩)]
      rcases I2 β d with h | h | ⟨s, hs, hd⟩
      · exact Or.inl h
      · exact Or.inr (Or.inl (bigEntry_mono _ h))
      · by_cases hβ : β = band
        · subst hβ
          rw [hm] at hs
          exact Option.noConfusion hs
        · refine Or.inr (Or.inr ⟨s, ?_, hd⟩)
          rw [mapSet_other _ _ hβ]
          exact hs
  · intro e he
    rcases List.mem_append.mp he with he | he
    · obtain ⟨s, hs, k, hk1, hk2, hdire⟩ := I3 e he
      have hβ : e.band ≠ band := hnone e he
      exact ⟨s, by rw [mapSet_other _ _ hβ]; exact hs, k, hk1, hk2, hdire⟩
    · rw [List.mem_singleton.mp he]
      exact ⟨⟨band ++ "_" ++ pyStr 1, 2, n⟩, mapSet_same _ _ _, 2,
        by omega, Nat.le_refl 2, hnd⟩

/-- Invariant preservation across one arbitrary `get_band_dest_directory`
call. -/
theorem allocInv_step (dp band : String) (n : Nat) {m : BandMap} {L : List LogEntry}
    (hinv : AllocInv m L) :
    AllocInv (get_band_dest_directory dp band n m).2.1
      (L ++ [⟨band, n, (get_band_dest_directory dp band n m).1⟩]) := by
  rcases hm : m band with _ | st
  · by_cases hov : MAX_FILES_PER_DIRECTORY < n + n
    · rw [step_new_overflow dp hm hov]
      exact allocInv_new_overflow hinv hm
    · rw [step_new_fit dp hm (Nat.le_of_not_lt hov)]
      exact allocInv_new_fit hinv hm (Nat.le_of_not_lt hov)
  · have hfc : 1 ≤ st.folder_count := (hinv.1 band st hm).1
    by_cases hov : MAX_FILES_PER_DIRECTORY < st.file_count + n
    · rw [step_known_overflow dp hm hov (by omega)]
      exact allocInv_known_overflow hinv hm
    · rw [step_known_fit dp hm (Nat.le_of_not_lt hov)]
      exact allocInv_known_fit hinv hm (Nat.le_of_not_lt hov)

theorem runCallsAux_inv (dp : String) :
    ∀ (calls : List (String × Nat)) (m : BandMap) (L : List LogEntry),
      AllocInv m L → ∀ β d,
      assignedBy (L ++ (runCallsAux dp calls m).2.1) β d ≤ MAX_FILES_PER_DIRECTORY ∨
      bigEntry (L ++ (runCallsAux dp calls m).2.1) β d := by
  intro calls
  induction calls with
  | nil =>
    intro m L hinv β d
    simpa [runCallsAux] using allocInv_goal hinv β d
  | cons c rest ih =>
    obtain ⟨band, n⟩ := c
    intro m L hinv β d
    have hres := ih _ _ (allocInv_step dp band n hinv) β d
    have key : (runCallsAux dp ((band, n) :: rest) m).2.1 =
        (⟨band, n, (get_band_dest_directory dp band n m).1⟩ : LogEntry) ::
          (runCallsAux dp rest (get_band_dest_directory dp band n m).2.1).2.1 := rfl
    rw [key, show ∀ (e : LogEntry) t, L ++ e :: t = (L ++ [e]) ++ t by simp]
    exact hres

theorem runCallsAux_calls (dp : String) :
    ∀ (calls : List (String × Nat)) (m : BandMap),
      ((runCallsAux dp calls m).2.1.map fun e => (e.band, e.size)) = calls := by
  intro calls
  induction calls with
  | nil => intro m; rfl
  | cons c rest ih =>
    obtain ⟨band, n⟩ := c
    intro m
    simp [runCallsAux, ih]

/-- C3 (amended): starting from an empty allocation map, every
`get_band_dest_directory` call places its whole batch under exactly one
returned folder name (the log records each call's band and batch size, and the
batch is never split), and no folder name is ever assigned more than
`MAX_FILES_PER_DIRECTORY` files by the calls of any single band, except when
one of that band's batches alone exceeds the cap.  (Calls of distinct bands
whose derived folder names collide may together exceed the cap: see the
counterexample.) -/
theorem allocator_per_band_cap (dest_path : String) (calls : List (String × Nat)) :
    ((runCalls dest_path calls).2.1.map fun e => (e.band, e.size)) = calls ∧
    ∀ β d, assignedBy (runCalls dest_path calls).2.1 β d ≤ MAX_FILES_PER_DIRECTORY ∨
      bigEntry (runCalls dest_path calls).2.1 β d := by
  constructor
  · exact runCallsAux_calls dest_path calls emptyMap
  · intro β d
    have h := runCallsAux_inv dest_path calls emptyMap [] allocInv_empty β d
    simpa using h

/-- C3 (counterexample): with the positive batch sequence 60, 45 for the two
distinct bands `AC` and `AC_1`, no single batch exceeds the cap, yet folder
`AC_1` (band `AC`'s overflow folder, and band `AC_1`'s bare folder) is
assigned 105 files in total across separate calls. -/
theorem allocator_global_cap_counterexample :
    assignedTo (runCalls "/alp" [("AC", 60), ("AC_1", 45)]).2.1 "AC_1" = 105 ∧
    (∀ e ∈ (runCalls "/alp" [("AC", 60), ("AC_1", 45)]).2.1,
      0 < e.size ∧ e.size ≤ MAX_FILES_PER_DIRECTORY) ∧
    MAX_FILES_PER_DIRECTORY < 105 := by decide

/-- C1: evaluation of the code at the failing input.  For band `Nirvana` with
a single batch of 60 eligible tracks (total 60 ≤ 100), the first and only
`get_band_dest_directory` call returns `Nirvana_1`, not the bare band name;
and the freshly initialized state carries `file_count = 60`, not 0, before the
batch is added. -/
theorem first_call_total_60_not_bare :
    (runCalls "/alp" [("Nirvana", 60)]).2.1 = [⟨"Nirvana", 60, "Nirvana_1"⟩] ∧
    60 ≤ MAX_FILES_PER_DIRECTORY ∧
    ("Nirvana_1" : String) ≠ "Nirvana" ∧
    (create_new_band_directory "/alp" "Nirvana" 1 60 emptyMap).1 "Nirvana" =
      some ⟨"Nirvana", 1, 60⟩ := by decide

/-- C2: evaluation of the code at the failing input.  A single call for band
`Prolific` with batch size 60 allocates two folders, `Prolific` and then
`Prolific_1`: the second folder allocated for a band is named with suffix
`_1`, not `_2`. -/
theorem second_folder_named_band_1 :
    (runCalls "/alp" [("Prolific", 60)]).2.2 =
      [FsAction.removeIfExists "/alp/Prolific", FsAction.createIfAbsent "/alp/Prolific",
       FsAction.removeIfExists "/alp/Prolific_1",
       FsAction.createIfAbsent "/alp/Prolific_1"] ∧
    ("Prolific_1" : String) ≠ "Prolific_2" := by decide

/-- C4: evaluation of the code at the failing input.  Three
`get_band_dest_directory` calls of batch size 40 for band `Prolific` from a
fresh map return `Prolific`, `Prolific_1`, `Prolific_1` — not
`Prolific`, `Prolific`, `Prolific_2` as the specification example states. -/
theorem prolific_three_albums_eval :
    ((runCalls "/alp" [("Prolific", 40), ("Prolific", 40), ("Prolific", 40)]).2.1.map
      LogEntry.dir) = ["Prolific", "Prolific_1", "Prolific_1"] ∧
    (["Prolific", "Prolific_1", "Prolific_1"] : List String) ≠
      ["Prolific", "Prolific", "Prolific_2"] := by decide

theorem get_band_acts_nil_cases {dp band : String} {n : Nat} {m : BandMap}
    (h : (get_band_dest_directory dp band n m).2.2 = []) :
    (m band).isSome ∧
    ¬ MAX_FILES_PER_DIRECTORY < ((m band).getD defaultBandState).file_count + n := by
  by_cases hsome : (m band).isSome
  · refine ⟨hsome, ?_⟩
    intro hov
    obtain ⟨st, hm⟩ := Option.isSome_iff_exists.mp hsome
    rw [hm] at hov
    simp only [Option.getD_some] at hov
    by_cases hfc : st.folder_count = 0
    · unfold get_band_dest_directory create_new_band_directory at h
      simp [hm, hov, hfc] at h
    · rw [step_known_overflow dp hm hov hfc] at h
      simp at h
  · rcases hm : m band with _ | st
    · by_cases hov : MAX_FILES_PER_DIRECTORY < n + n
      · rw [step_new_overflow dp hm hov] at h
        simp at h
      · rw [step_new_fit dp hm (Nat.le_of_not_lt hov)] at h
        simp at h
    · exact absurd (by rw [hm]; rfl) hsome

/-- C5 (amended): `get_band_dest_directory` touches the filesystem exactly
when it allocates a new folder: its filesystem actions are empty if and only
if the band is already known and the stored count plus the batch fits under
the cap (the reuse case); the allocation decision itself is a pure function of
the in-memory map and the inputs. -/
theorem assignFolder_fs_actions_iff (dest_path band : String) (n : Nat) (m : BandMap) :
    (get_band_dest_directory dest_path band n m).2.2 = [] ↔
    ∃ st, m band = some st ∧ st.file_count + n ≤ MAX_FILES_PER_DIRECTORY := by
  constructor
  · intro h
    obtain ⟨hsome, hov⟩ := get_band_acts_nil_cases h
    obtain ⟨st, hm⟩ := Option.isSome_iff_exists.mp hsome
    refine ⟨st, hm, ?_⟩
    rw [hm] at hov
    simp only [Option.getD_some] at hov
    exact Nat.le_of_not_lt hov
  · rintro ⟨st, hm, hfit⟩
    rw [step_known_fit dest_path hm hfit]

/-- C5 (counterexample): the first `get_band_dest_directory` call for a band
performs filesystem actions, and those actions change a destination filesystem
that already contains a directory of the band's name: the claim that
AssignFolder leaves the filesystem unchanged is false. -/
theorem assignFolder_touches_fs_counterexample :
    (get_band_dest_directory "/alp" "Nirvana" 5 emptyMap).2.2 ≠ [] ∧
    fsApplyAll [("/alp/Nirvana", ["keep.mp3"])]
      (get_band_dest_directory "/alp" "Nirvana" 5 emptyMap).2.2 ≠
      [("/alp/Nirvana", ["keep.mp3"])] := by decide

theorem create_new_acts_under (dp band : String) (fc n : Nat) (m : BandMap) :
    ∀ a ∈ (create_new_band_directory dp band fc n m).2, underDest dp a := by
  intro a ha
  simp only [create_new_band_directory, List.mem_cons, List.not_mem_nil, or_false] at ha
  rcases ha with ha | ha <;> subst ha <;> exact ⟨_, rfl⟩

theorem get_band_acts_under (dp band : String) (n : Nat) (m : BandMap) :
    ∀ a ∈ (get_band_dest_directory dp band n m).2.2, underDest dp a := by
  intro a ha
  simp only [get_band_dest_directory] at ha
  split at ha
  · split at ha
    · rcases List.mem_append.mp ha with h | h
      · simp at h
      · exact create_new_acts_under dp band _ n _ a h
    · simp at ha
  · split at ha
    · rcases List.mem_append.mp ha with h | h
      · exact create_new_acts_under dp band 1 n m a h
      · exact create_new_acts_under dp band _ n _ a h
    · exact create_new_acts_under dp band 1 n m a ha

theorem processAlbum_acts_under (dp bp band : String) (album : Node) (m : BandMap) :
    ∀ a ∈ (processAlbum dp bp band album m).2.1, underDest dp a := by
  intro a ha
  match album with
  | Node.file s => simp [processAlbum] at ha
  | Node.dir an entries =>
    simp only [processAlbum] at ha
    split at ha
    · simp at ha
    · rcases List.mem_append.mp ha with h | h
      · exact get_band_acts_under dp band _ m a h
      · obtain ⟨song, _, heq⟩ := List.mem_map.mp h
        rw [← heq]
        exact ⟨_, rfl⟩

theorem processAlbums_acts_under (dp bp band : String) :
    ∀ (albums : List Node) (m : BandMap),
      ∀ a ∈ (processAlbums dp bp band albums m).2.1, underDest dp a := by
  intro albums
  induction albums with
  | nil =>
    intro m a ha
    simp [processAlbums] at ha
  | cons x rest ih =>
    intro m a ha
    simp only [processAlbums] at ha
    rcases List.mem_append.mp ha with h | h
    · exact processAlbum_acts_under dp bp band x m a h
    · exact ih _ a h

theorem processBand_acts_under (music dp : String) (bands : Option (List String))
    (node : Node) (m : BandMap) :
    ∀ a ∈ (processBand music dp bands node m).2.1, underDest dp a := by
  intro a ha
  match node with
  | Node.file s => simp [processBand] at ha
  | Node.dir band children =>
    simp only [processBand] at ha
    split at ha
    · exact processAlbums_acts_under dp _ band children m a ha
    · simp at ha

theorem runBands_acts_under (music dp : String) (bands : Option (List String)) :
    ∀ (nodes : List Node) (m : BandMap),
      ∀ a ∈ (runBands music dp bands nodes m).2.1, underDest dp a := by
  intro nodes
  induction nodes with
  | nil =>
    intro m a ha
    simp [runBands] at ha
  | cons x rest ih =>
    intro m a ha
    simp only [runBands] at ha
    rcases List.mem_append.mp ha with h | h
    · exact processBand_acts_under music dp bands x m a h
    · exact ih _ a h

/-- C6 (amended): a run may delete pre-existing contents under the destination
root — allocating a band folder first removes any existing directory of that
name — but every filesystem action of a run (directory removal, directory
creation, copy destination) targets a path directly under the destination
root: source files are never deleted or modified. -/
theorem run_actions_under_dest (music dp : String) (bands : Option (List String))
    (tree : List Node) :
    ∀ a ∈ (runAlpinify music dp bands tree).2.1, underDest dp a :=
  runBands_acts_under music dp bands tree emptyMap

/-- C6 (witness): the general theorem applied to a concrete run and a concrete
action of that run. -/
theorem run_actions_under_dest_witness :
    underDest "/alp" (FsAction.removeIfExists "/alp/Nirvana") :=
  run_actions_under_dest "/music" "/alp" none
    [Node.dir "Nirvana" [Node.dir "Nevermind" [Node.file "Polly.mp3"]]]
    (FsAction.removeIfExists "/alp/Nirvana") (by decide)

/-- C6 (counterexample): a default run against a destination that already
contains a folder `Nirvana` with a file `keep.mp3` deletes that pre-existing
file: the claim that pre-existing destination contents are left intact and
merged into is false. -/
theorem destructive_reset_counterexample :
    (∃ e ∈ ([("/alp/Nirvana", ["keep.mp3"])] : Fs), "keep.mp3" ∈ e.2) ∧
    (∀ e ∈ fsApplyAll [("/alp/Nirvana", ["keep.mp3"])]
        (runAlpinify "/music" "/alp" none
          [Node.dir "Nirvana" [Node.dir "Nevermind" [Node.file "Polly.mp3"]]]).2.1,
      "keep.mp3" ∉ e.2) := by decide

theorem create_new_no_copy (dp band : String) (fc n : Nat) (m : BandMap)
    (s dd dn : String) :
    FsAction.copy s dd dn ∉ (create_new_band_directory dp band fc n m).2 := by
  simp [create_new_band_directory]

theorem get_band_no_copy (dp band : String) (n : Nat) (m : BandMap)
    (s dd dn : String) :
    FsAction.copy s dd dn ∉ (get_band_dest_directory dp band n m).2.2 := by
  intro h
  simp only [get_band_dest_directory] at h
  split at h
  · split at h
    · rcases List.mem_append.mp h with h | h
      · simp at h
      · exact create_new_no_copy dp band _ n _ s dd dn h
    · simp at h
  · split at h
    · rcases List.mem_append.mp h with h | h
      · exact create_new_no_copy dp band 1 n m s dd dn h
      · exact create_new_no_copy dp band _ n _ s dd dn h
    · exact create_new_no_copy dp band 1 n m s dd dn h

theorem processAlbum_copy {dp bp band : String} {album : Node} {m : BandMap}
    {s dd dn : String}
    (h : FsAction.copy s dd dn ∈ (processAlbum dp bp band album m).2.1) :
    ∃ r ∈ (processAlbum dp bp band album m).2.2, ∃ song ∈ r.songs,
      dn = r.album ++ "-" ++ song ∧ dd = pyJoin dp r.dir ∧
      s = pyJoin (pyJoin bp r.album) song ∧ r.band = band := by
  match album with
  | Node.file x => simp [processAlbum] at h
  | Node.dir an entries =>
    by_cases hs : eligibleSongs entries = []
    · simp [processAlbum, hs] at h
    · simp only [processAlbum, if_neg hs] at h ⊢
      rcases List.mem_append.mp h with h | h
      · exact absurd h (get_band_no_copy dp band _ m s dd dn)
      · obtain ⟨song, hsong, heq⟩ := List.mem_map.mp h
        injection heq with h1 h2 h3
        exact ⟨⟨band, an, eligibleSongs entries, _⟩, by simp, song, hsong,
          h3.symm, h2.symm, h1.symm, rfl⟩

theorem processAlbums_copy {dp bp band : String} :
    ∀ (albums : List Node) (m : BandMap) {s dd dn : String},
      FsAction.copy s dd dn ∈ (processAlbums dp bp band albums m).2.1 →
      ∃ r ∈ (processAlbums dp bp band albums m).2.2, ∃ song ∈ r.songs,
        dn = r.album ++ "-" ++ song ∧ dd = pyJoin dp r.dir ∧
        s = pyJoin (pyJoin bp r.album) song ∧ r.band = band := by
  intro albums
  induction albums with
  | nil =>
    intro m s dd dn h
    simp [processAlbums] at h
  | cons x rest ih =>
    intro m s dd dn h
    simp only [processAlbums] at h ⊢
    rcases List.mem_append.mp h with h | h
    · obtain ⟨r, hr, hrest⟩ := processAlbum_copy h
      exact ⟨r, List.mem_append_left _ hr, hrest⟩
    · obtain ⟨r, hr, hrest⟩ := ih _ h
      exact ⟨r, List.mem_append_right _ hr, hrest⟩

theorem processBand_copy {music dp : String} {bands : Option (List String)}
    {node : Node} {m : BandMap} {s dd dn : String}
    (h : FsAction.copy s dd dn ∈ (processBand music dp bands node m).2.1) :
    ∃ r ∈ (processBand music dp bands node m).2.2, ∃ song ∈ r.songs,
      dn = r.album ++ "-" ++ song ∧ dd = pyJoin dp r.dir ∧
      s = pyJoin (pyJoin (pyJoin music r.band) r.album) song := by
  match node with
  | Node.file x => simp [processBand] at h
  | Node.dir band children =>
    by_cases hp : shouldProcess bands band = true
    · simp only [processBand, if_pos hp] at h ⊢
      obtain ⟨r, hr, song, hsong, h1, h2, h3, h4⟩ := processAlbums_copy children m h
      refine ⟨r, hr, song, hsong, h1, h2, ?_⟩
      rw [h4]
      exact h3
    · simp only [processBand, if_neg hp] at h
      simp at h

theorem runBands_copy {music dp : String} {bands : Option (List String)} :
    ∀ (nodes : List Node) (m : BandMap) {s dd dn : String},
      FsAction.copy s dd dn ∈ (runBands music dp bands nodes m).2.1 →
      ∃ r ∈ (runBands music dp bands nodes m).2.2, ∃ song ∈ r.songs,
        dn = r.album ++ "-" ++ song ∧ dd = pyJoin dp r.dir ∧
        s = pyJoin (pyJoin (pyJoin music r.band) r.album) song := by
  intro nodes
  induction nodes with
  | nil =>
    intro m s dd dn h
    simp [runBands] at h
  | cons x rest ih =>
    intro m s dd dn h
    simp only [runBands] at h ⊢
    rcases List.mem_append.mp h with h | h
    · obtain ⟨r, hr, hrest⟩ := processBand_copy h
      exact ⟨r, List.mem_append_left _ hr, hrest⟩
    · obtain ⟨r, hr, hrest⟩ := ih _ h
      exact ⟨r, List.mem_append_right _ hr, hrest⟩

/-- C7: every copy action of a run targets the destination filename
`<album>-<originalFilename>` (exactly, case-preserving), placed under the
destination root inside the folder returned by `get_band_dest_directory` for
that album's batch (the folder stored in the album's record), and reads its
source from `<musicRoot>/<band>/<album>/<originalFilename>`. -/
theorem copied_track_dest_shape (music dp : String) (bands : Option (List String))
    (tree : List Node) (s dd dn : String)
    (h : FsAction.copy s dd dn ∈ (runAlpinify music dp bands tree).2.1) :
    ∃ r ∈ (runAlpinify music dp bands tree).2.2, ∃ song ∈ r.songs,
      dn = r.album ++ "-" ++ song ∧ dd = pyJoin dp r.dir ∧
      s = pyJoin (pyJoin (pyJoin music r.band) r.album) song :=
  runBands_copy tree emptyMap h

/-- C7 (witness): the theorem applied to a concrete run and its single copy
action. -/
theorem copied_track_dest_shape_witness :
    ∃ r ∈ (runAlpinify "/music" "/alp" none
        [Node.dir "Nirvana" [Node.dir "Nevermind" [Node.file "Polly.mp3"]]]).2.2,
      ∃ song ∈ r.songs,
        "Nevermind-Polly.mp3" = r.album ++ "-" ++ song ∧
        "/alp/Nirvana" = pyJoin "/alp" r.dir ∧
        "/music/Nirvana/Nevermind/Polly.mp3" =
          pyJoin (pyJoin (pyJoin "/music" r.band) r.album) song :=
  copied_track_dest_shape "/music" "/alp" none
    [Node.dir "Nirvana" [Node.dir "Nevermind" [Node.file "Polly.mp3"]]]
    "/music/Nirvana/Nevermind/Polly.mp3" "/alp/Nirvana" "Nevermind-Polly.mp3"
    (by decide)

/-- C8: an album directory with no eligible songs is skipped entirely — no
allocator call, no filesystem action, no record, and the map is unchanged —
and every name in a collected batch is the name of a regular file directly
inside the album directory whose lowercased name ends with `.mp3`. -/
theorem empty_album_skipped_and_batch_eligible :
    (∀ (dp bp band albumName : String) (entries : List Node) (m : BandMap),
      eligibleSongs entries = [] →
      processAlbum dp bp band (Node.dir albumName entries) m = (m, [], [])) ∧
    (∀ (entries : List Node) (s : String), s ∈ eligibleSongs entries →
      pyEndsWith (pyLower s) FILE_EXT = true ∧ Node.file s ∈ entries) := by
  constructor
  · intro dp bp band an entries m h
    simp [processAlbum, h]
  · intro entries s h
    simp only [eligibleSongs, List.mem_filterMap] at h
    obtain ⟨e, he, heq⟩ := h
    match e with
    | Node.file t =>
      by_cases ht : pyEndsWith (pyLower t) FILE_EXT = true
      · simp only [ht, if_true, Option.some.injEq] at heq
        subst heq
        exact ⟨ht, he⟩
      · simp [ht] at heq
    | Node.dir x c => simp at heq

/-- C8 (witness): the theorem applied to a concrete album with no eligible
song and to a concrete collected song. -/
theorem empty_album_skipped_witness :
    processAlbum "/alp" "/music/B" "B"
      (Node.dir "Artwork" [Node.file "cover.jpg", Node.dir "sub" []]) emptyMap =
      (emptyMap, [], []) ∧
    (pyEndsWith (pyLower "Polly.MP3") FILE_EXT = true ∧
      Node.file "Polly.MP3" ∈ [Node.file "Polly.MP3", Node.file "notes.txt"]) :=
  ⟨empty_album_skipped_and_batch_eligible.1 "/alp" "/music/B" "B" "Artwork"
      [Node.file "cover.jpg", Node.dir "sub" []] emptyMap (by decide),
   empty_album_skipped_and_batch_eligible.2
      [Node.file "Polly.MP3", Node.file "notes.txt"] "Polly.MP3" (by decide)⟩

theorem nonempty_filter_isEmpty {f : List String} (h : f ≠ []) :
    f.isEmpty = false := by
  cases f with
  | nil => exact absurd rfl h
  | cons a t => rfl

/-- C9: with a non-empty band filter, a run is exactly the unfiltered run on
the source tree restricted to the band directories whose name is a
case-sensitive exact member of the filter: filtered-out bands contribute no
allocator call, no filesystem action and no record. -/
theorem band_filter_exact (music dp : String) (f : List String) (tree : List Node)
    (hf : f ≠ []) :
    runAlpinify music dp (some f) tree =
    runAlpinify music dp none (tree.filter (keepBand f)) := by
  suffices h : ∀ (nodes : List Node) (m : BandMap),
      runBands music dp (some f) nodes m =
      runBands music dp none (nodes.filter (keepBand f)) m from h tree emptyMap
  intro nodes
  induction nodes with
  | nil => intro m; rfl
  | cons x rest ih =>
    intro m
    match x with
    | Node.file s =>
      simp [runBands, processBand, keepBand, List.filter_cons, ih]
    | Node.dir name children =>
      have hnone : shouldProcess none name = true := rfl
      rcases Bool.eq_false_or_eq_true (f.contains name) with hc | hc
      · have hkeep : keepBand f (Node.dir name children) = true := hc
        have hsp : shouldProcess (some f) name = true := by
          simp only [shouldProcess]
          rw [hc, Bool.or_true]
        simp [runBands, processBand, List.filter_cons, hkeep, hsp, hnone, ih]
      · have hkeep : keepBand f (Node.dir name children) = false := hc
        have hsp : shouldProcess (some f) name = false := by
          simp only [shouldProcess]
          rw [nonempty_filter_isEmpty hf, hc]
          rfl
        simp [runBands, processBand, List.filter_cons, hkeep, hsp, ih]

/-- C9 (witness): the theorem applied to a concrete filter and tree. -/
theorem band_filter_exact_witness :
    runAlpinify "/m" "/d" (some ["Nirvana"])
      [Node.dir "Nirvana" [], Node.dir "Zeppelin" []] =
    runAlpinify "/m" "/d" none
      ([Node.dir "Nirvana" [], Node.dir "Zeppelin" []].filter (keepBand ["Nirvana"])) :=
  band_filter_exact "/m" "/d" ["Nirvana"]
    [Node.dir "Nirvana" [], Node.dir "Zeppelin" []] (by decide)

/-- C10: supplying the `--bands` option with zero names (an empty list) runs
identically to omitting the option (`None`): both process every band
directory.  The Python condition `not bands or band in bands` is true for
every band in both cases. -/
theorem empty_band_list_no_filter (music dp : String) (tree : List Node) :
    runAlpinify music dp (some []) tree = runAlpinify music dp none tree := by
  suffices h : ∀ (nodes : List Node) (m : BandMap),
      runBands music dp (some []) nodes m = runBands music dp none nodes m from
    h tree emptyMap
  intro nodes
  induction nodes with
  | nil => intro m; rfl
  | cons x rest ih =>
    intro m
    match x with
    | Node.file s => simp [runBands, processBand, ih]
    | Node.dir name children => simp [runBands, processBand, shouldProcess, ih]

end Alpinify
